import Mathlib

/-!
Verification of the `slicing` function from `src/main.rs` of the
rust_day_6 repository, against its natural-language specification
(the spec's `prefix_before_marker`).

Model: a Rust `&str` is a sequence of UTF-8 bytes; we model its byte
content as a `List Nat` (each entry a byte value).  Unicode text is
modelled as a `List Nat` of code points, turned into bytes by the
UTF-8 encoder `utf8Encode`.  The marker character is `'r'`, whose code
point and single UTF-8 byte are both 114.

The Rust byte-range slice `&s[0..i]` panics when `i` is not a character
boundary of `s` (or is out of range); we model it as an `Option`,
with `none` standing for the panic, so `slicing` returns an
`Option (List Nat)` and totality of the Rust function is the statement
that the result is always `some`.
-/

/-- UTF-8 encoding of a single Unicode code point, branch by branch
(1 to 4 bytes).  Every byte of a multi-byte sequence is at least 128. -/
def utf8EncodeChar (c : Nat) : List Nat :=
  if c < 128 then [c]
  else if c < 2048 then [192 + c / 64, 128 + c % 64]
  else if c < 65536 then [224 + c / 4096, 128 + c / 64 % 64, 128 + c % 64]
  else [240 + c / 262144, 128 + c / 4096 % 64, 128 + c / 64 % 64, 128 + c % 64]

/-- UTF-8 encoding of a sequence of code points into a byte sequence. -/
def utf8Encode : List Nat → List Nat
  | [] => []
  | c :: cs => utf8EncodeChar c ++ utf8Encode cs

/-- Whether a byte is a UTF-8 continuation byte (`0b10xxxxxx`). -/
def isContinuationByte (b : Nat) : Bool :=
  decide (128 ≤ b) && decide (b < 192)

/-- Rust's `str::is_char_boundary`: index 0 and the total length are
boundaries; otherwise the byte at the index must exist and must not be
a continuation byte. -/
def is_char_boundary (s : List Nat) (i : Nat) : Bool :=
  if i = 0 then true
  else if i = s.length then true
  else
    match s[i]? with
    | none => false
    | some b => ! isContinuationByte b

/-- The Rust byte-range slice `&s[0..i]`: defined (the first `i` bytes)
when `i` is a character boundary, otherwise a panic, modelled as `none`. -/
def sliceTo (s : List Nat) (i : Nat) : Option (List Nat) :=
  if is_char_boundary s i then some (s.take i) else none

/-- The byte loop of `slicing`: index of the first byte equal to
`b'r'` (114) in the byte sequence, if any.  Mirrors
`for (i, &item) in bytes.iter().enumerate() { if item == b'r' ... }`. -/
def findMarker : List Nat → Option Nat
  | [] => none
  | b :: rest => if b = 114 then some 0 else (findMarker rest).map (· + 1)

/-- `fn slicing(my_string: &str) -> &str` from `src/main.rs`
(lines 94-104): scan the bytes for the first occurrence of `b'r'`;
on finding it at index `i` return `&my_string[0..i]`, otherwise return
`&my_string[..]` (the whole string).  The `Option` result models the
panic branch of the slice operation. -/
def slicing (s : List Nat) : Option (List Nat) :=
  match findMarker s with
  | some i => sliceTo s i
  | none => some s

/-- Modelled from the spec: the character-wise reference scan of
`prefix_before_marker` — the longest prefix of the *code points*
strictly before the first occurrence of the marker code point 114. -/
def prefix_before_marker : List Nat → List Nat
  | [] => []
  | c :: cs => if c = 114 then [] else c :: prefix_before_marker cs

/-! ### Helper lemmas -/

theorem utf8EncodeChar_marker : utf8EncodeChar 114 = [114] := rfl

theorem marker_not_mem_utf8EncodeChar {c : Nat} (h : c ≠ 114) :
    114 ∉ utf8EncodeChar c := by
  unfold utf8EncodeChar
  split
  · simpa using fun e => h e.symm
  · split
    · intro hm; simp at hm; omega
    · split
      · intro hm; simp at hm; omega
      · intro hm; simp at hm; omega

theorem marker_not_mem_utf8Encode {cs : List Nat} (h : 114 ∉ cs) :
    114 ∉ utf8Encode cs := by
  induction cs with
  | nil => simp [utf8Encode]
  | cons c cs ih =>
    have hc : c ≠ 114 := fun e => h (List.mem_cons.mpr (Or.inl e.symm))
    have hcs : 114 ∉ cs := fun hm => h (List.mem_cons.mpr (Or.inr hm))
    intro hm
    simp only [utf8Encode] at hm
    rcases List.mem_append.mp hm with h1 | h1
    · exact marker_not_mem_utf8EncodeChar hc h1
    · exact ih hcs h1

theorem utf8Encode_append (A B : List Nat) :
    utf8Encode (A ++ B) = utf8Encode A ++ utf8Encode B := by
  induction A with
  | nil => rfl
  | cons a A ih => simp [utf8Encode, ih, List.append_assoc]

theorem findMarker_eq_none {s : List Nat} (h : 114 ∉ s) :
    findMarker s = none := by
  induction s with
  | nil => rfl
  | cons a s ih =>
    have ha : ¬ (a = 114) := fun e => h (List.mem_cons.mpr (Or.inl e.symm))
    have hs : 114 ∉ s := fun hm => h (List.mem_cons.mpr (Or.inr hm))
    simp [findMarker, ha, ih hs]

theorem findMarker_append_marker {A : List Nat} (h : 114 ∉ A) (B : List Nat) :
    findMarker (A ++ 114 :: B) = some A.length := by
  induction A with
  | nil => rfl
  | cons a A ih =>
    have ha : ¬ (a = 114) := fun e => h (List.mem_cons.mpr (Or.inl e.symm))
    have hA : 114 ∉ A := fun hm => h (List.mem_cons.mpr (Or.inr hm))
    simp [findMarker, ha, ih hA]

theorem getElem_append_cons (A : List Nat) (b : Nat) (B : List Nat) :
    (A ++ b :: B)[A.length]? = some b := by
  induction A with
  | nil => simp
  | cons a A ih => simpa using ih

theorem take_append_cons (A : List Nat) (b : Nat) (B : List Nat) :
    (A ++ b :: B).take A.length = A := by
  induction A with
  | nil => rfl
  | cons a A ih => simp [ih]

theorem is_char_boundary_of_marker {s : List Nat} {i : Nat}
    (h : s[i]? = some 114) : is_char_boundary s i = true := by
  unfold is_char_boundary
  split
  · rfl
  · split
    · rfl
    · rw [h]
      rfl

theorem slicing_of_not_mem {s : List Nat} (h : 114 ∉ s) :
    slicing s = some s := by
  unfold slicing
  rw [findMarker_eq_none h]

theorem slicing_append_marker {E : List Nat} (h : 114 ∉ E) (R : List Nat) :
    slicing (E ++ 114 :: R) = some E := by
  unfold slicing
  rw [findMarker_append_marker h]
  show sliceTo (E ++ 114 :: R) E.length = some E
  unfold sliceTo
  rw [is_char_boundary_of_marker (getElem_append_cons E 114 R)]
  simp [take_append_cons]

theorem exists_first_split {l : List Nat} (h : 114 ∈ l) :
    ∃ s t, l = s ++ 114 :: t ∧ 114 ∉ s := by
  induction l with
  | nil => cases h
  | cons a l ih =>
    by_cases ha : a = 114
    · exact ⟨[], l, by simp [ha], by simp⟩
    · have hm : 114 ∈ l := by
        rcases List.mem_cons.mp h with h1 | h1
        · exact absurd h1.symm ha
        · exact h1
      obtain ⟨s, t, hl, hs⟩ := ih hm
      refine ⟨a :: s, t, by rw [hl]; rfl, ?_⟩
      intro hmem
      rcases List.mem_cons.mp hmem with h1 | h1
      · exact ha h1.symm
      · exact hs h1

theorem pbm_of_not_mem {cs : List Nat} (h : 114 ∉ cs) :
    prefix_before_marker cs = cs := by
  induction cs with
  | nil => rfl
  | cons c cs ih =>
    have hc : ¬ (c = 114) := fun e => h (List.mem_cons.mpr (Or.inl e.symm))
    have hcs : 114 ∉ cs := fun hm => h (List.mem_cons.mpr (Or.inr hm))
    simp [prefix_before_marker, hc, ih hcs]

theorem pbm_append_marker {as : List Nat} (h : 114 ∉ as) (bs : List Nat) :
    prefix_before_marker (as ++ 114 :: bs) = as := by
  induction as with
  | nil => simp [prefix_before_marker]
  | cons a as ih =>
    have ha : ¬ (a = 114) := fun e => h (List.mem_cons.mpr (Or.inl e.symm))
    have has : 114 ∉ as := fun hm => h (List.mem_cons.mpr (Or.inr hm))
    simp [prefix_before_marker, ha, ih has]

theorem utf8Encode_marker_cons (bs : List Nat) :
    utf8Encode (114 :: bs) = 114 :: utf8Encode bs := by
  simp [utf8Encode, utf8EncodeChar_marker]

theorem slicing_utf8_eq (cs : List Nat) :
    slicing (utf8Encode cs) = some (utf8Encode (prefix_before_marker cs)) := by
  by_cases hm : 114 ∈ cs
  · obtain ⟨as, bs, rfl, has⟩ := exists_first_split hm
    rw [pbm_append_marker has, utf8Encode_append, utf8Encode_marker_cons]
    exact slicing_append_marker (marker_not_mem_utf8Encode has) _
  · rw [pbm_of_not_mem hm]
    exact slicing_of_not_mem (marker_not_mem_utf8Encode hm)

/-! ### Claims -/

/-- C1: for every text `T = A ++ 'r' ++ B` (as code points) where the
segment `A` contains no occurrence of the marker character `'r'`
(code point 114), `slicing` applied to the UTF-8 bytes of `T` returns
the UTF-8 bytes of `A`. -/
theorem slicing_segment_before_first_marker (as bs : List Nat)
    (h : 114 ∉ as) :
    slicing (utf8Encode (as ++ 114 :: bs)) = some (utf8Encode as) := by
  rw [utf8Encode_append, utf8Encode_marker_cons]
  exact slicing_append_marker (marker_not_mem_utf8Encode h) _

/-- Witness for C1 at the concrete text "hé" ++ "r" ++ "x"
(code points [104, 233] ++ 114 :: [120], with a two-byte character). -/
theorem slicing_segment_before_first_marker_witness :
    slicing (utf8Encode ([104, 233] ++ 114 :: [120]))
      = some (utf8Encode [104, 233]) :=
  slicing_segment_before_first_marker [104, 233] [120] (by decide)

/-- C2: for every text `T` (as code points) containing no occurrence of
the marker character `'r'` (code point 114), `slicing` applied to the
UTF-8 bytes of `T` returns the whole byte sequence unchanged. -/
theorem slicing_no_marker_identity (cs : List Nat) (h : 114 ∉ cs) :
    slicing (utf8Encode cs) = some (utf8Encode cs) :=
  slicing_of_not_mem (marker_not_mem_utf8Encode h)

/-- Witness for C2 at the concrete text "hé!" (code points
[104, 233, 33], no marker). -/
theorem slicing_no_marker_identity_witness :
    slicing (utf8Encode [104, 233, 33]) = some (utf8Encode [104, 233, 33]) :=
  slicing_no_marker_identity [104, 233, 33] (by decide)

/-- C3: `slicing` is total on every valid UTF-8 input: for every
sequence of code points, running `slicing` on its UTF-8 bytes yields
`some` result — the slice operation's panic branch (modelled by
`sliceTo` returning `none`) is unreachable, because the byte index at
which it slices always falls on a character boundary. -/
theorem slicing_total (cs : List Nat) :
    (slicing (utf8Encode cs)).isSome = true := by
  rw [slicing_utf8_eq]
  rfl

/-- C4 counterexample: the claim `slicing "world" = "world"` is false:
"world" (code points [119, 111, 114, 108, 100]) contains the marker
`'r'` (code point 114) at index 2, so the whole text is not returned. -/
theorem slicing_world_claim_false :
    slicing (utf8Encode [119, 111, 114, 108, 100])
      ≠ some (utf8Encode [119, 111, 114, 108, 100]) := by
  decide

/-- C4 amended: `slicing "world"` returns "wo", the prefix before the
`'r'` inside "world". -/
theorem slicing_world_eq_wo :
    slicing (utf8Encode [119, 111, 114, 108, 100])
      = some (utf8Encode [119, 111]) := by
  decide

/-- C5 counterexample: the claim
`slicing "world with r in it" = "world with "` is false: the first
`'r'` of that text is the one inside "world" at index 2, not the
standalone one. -/
theorem slicing_world_with_r_claim_false :
    slicing (utf8Encode
        [119, 111, 114, 108, 100, 32, 119, 105, 116, 104, 32,
         114, 32, 105, 110, 32, 105, 116])
      ≠ some (utf8Encode
        [119, 111, 114, 108, 100, 32, 119, 105, 116, 104, 32]) := by
  decide

/-- C5 amended: `slicing "world with r in it"` returns "wo", the prefix
before the first `'r'`, which occurs inside "world". -/
theorem slicing_world_with_r_eq_wo :
    slicing (utf8Encode
        [119, 111, 114, 108, 100, 32, 119, 105, 116, 104, 32,
         114, 32, 105, 110, 32, 105, 116])
      = some (utf8Encode [119, 111]) := by
  decide

/-- C6: `slicing` applied to the empty text returns the empty text. -/
theorem slicing_empty :
    slicing (utf8Encode []) = some (utf8Encode []) := rfl

/-- C7: for every text whose first character is the marker `'r'`
(code point 114), `slicing` returns the empty text; in particular
`slicing "r" = ""`. -/
theorem slicing_marker_first :
    (∀ cs : List Nat,
        slicing (utf8Encode (114 :: cs)) = some (utf8Encode []))
    ∧ slicing (utf8Encode [114]) = some (utf8Encode []) := by
  constructor
  · intro cs
    have h := slicing_utf8_eq (114 :: cs)
    simpa [prefix_before_marker] using h
  · decide

/-- C8: for every input byte sequence `s`, whenever `slicing s` returns
a result `r`, that result is an initial contiguous segment of `s`:
there is a remainder `t` with `s = r ++ t`. -/
theorem slicing_result_initial_segment (s r : List Nat)
    (h : slicing s = some r) : ∃ t, s = r ++ t := by
  rcases hf : findMarker s with _ | i
  · have h2 : slicing s = some s := by
      unfold slicing
      rw [hf]
    rw [h2] at h
    injection h with h
    exact ⟨[], by simp [h]⟩
  · have h2 : slicing s = sliceTo s i := by
      unfold slicing
      rw [hf]
    rw [h2] at h
    unfold sliceTo at h
    by_cases hb : is_char_boundary s i = true
    · rw [if_pos hb] at h
      injection h with h
      exact ⟨s.drop i, by rw [← h]; exact (List.take_append_drop i s).symm⟩
    · rw [if_neg hb] at h
      cases h

/-- Witness for C8 at the concrete input [104, 114, 120] with result
[104]. -/
theorem slicing_result_initial_segment_witness :
    ∃ t, ([104, 114, 120] : List Nat) = [104] ++ t :=
  slicing_result_initial_segment [104, 114, 120] [104] (by decide)

/-- C9: `slicing` is pure and deterministic: it is modelled as a pure
function, and any two runs on equal inputs return equal results. -/
theorem slicing_deterministic (s t : List Nat) (h : s = t) :
    slicing s = slicing t :=
  congrArg slicing h

/-- Witness for C9 at the concrete input [104, 114]. -/
theorem slicing_deterministic_witness :
    slicing [104, 114] = slicing [104, 114] :=
  slicing_deterministic [104, 114] [104, 114] rfl

/-- C10: on every valid UTF-8 input (the encoding of a sequence of
Unicode code points), the byte-wise scan of `slicing` agrees with the
character-wise reference scan `prefix_before_marker`: it returns
exactly the UTF-8 bytes of the code-point prefix before the first
`'r'` character. -/
theorem slicing_refines_charwise_scan (cs : List Nat)
    (_h : ∀ c ∈ cs, c < 1114112) :
    slicing (utf8Encode cs) = some (utf8Encode (prefix_before_marker cs)) :=
  slicing_utf8_eq cs

/-- Witness for C10 at the concrete text "hé" ++ "r" ++ "€x"
(code points [104, 233, 114, 8364, 120], with two- and three-byte
characters). -/
theorem slicing_refines_charwise_scan_witness :
    slicing (utf8Encode [104, 233, 114, 8364, 120])
      = some (utf8Encode (prefix_before_marker [104, 233, 114, 8364, 120])) :=
  slicing_refines_charwise_scan [104, 233, 114, 8364, 120] (by decide)
